import Mathlib

/-!
Verification of the markdown rendering and interactive text-selection engine
from `crates/markdown/src/markdown.rs`.

Shallow embedding conventions:
- Rust `usize` is modelled as `Nat`; `usize` subtraction that can underflow
  (a panic in the source) is modelled by returning `Option.none` from the
  function performing the fallible index computation.
- `Pixels` is modelled as `Int`: the embedded code only ever compares pixel
  coordinates, it performs no arithmetic on them.
- Rendered text (`&str` contents of a laid-out line) is modelled as
  `List Char`; the engine only splits it at ASCII space and backtick/newline
  characters, for which byte indices and character indices coincide.
- The GPUI `TextLayout` collaborator (layout measurement and hit testing) is
  external to this repository; it is modelled as a record of query functions,
  and theorems that depend on its behaviour take its contract as hypotheses.
- Fallible code paths (slice indexing, `unwrap`) return `Option`; `none`
  models a Rust panic.
- The Rust field `Selection::end` is renamed `stop` (`end` is a Lean keyword).
-/

/-- A pixel position, `gpui::Point<Pixels>`. Only comparisons are performed. -/
structure Point where
  x : Int
  y : Int
deriving DecidableEq

/-- `SourceMapping { rendered_index, source_index }` from markdown.rs. -/
structure SourceMapping where
  rendered_index : Nat
  source_index : Nat
deriving DecidableEq

/-- Model of the external GPUI `TextLayout` collaborator: the laid-out text of
one rendered line together with its hit-testing queries. `top`/`bottom` are
the y-extent of `layout.bounds()`. -/
structure TextLayout where
  text : List Char
  top : Int
  bottom : Int
  line_height : Int
  indexForPosition : Point → Except Nat Nat
  positionForIndex : Nat → Option Point

/-- `RenderedLine { layout, source_mappings, source_end }` from markdown.rs. -/
structure RenderedLine where
  layout : TextLayout
  source_mappings : List SourceMapping
  source_end : Nat

/-- `RenderedLink { source_range, destination_url }` from markdown.rs;
the half-open source range is a pair of byte offsets. -/
structure RenderedLink where
  source_range : Nat × Nat
  destination_url : String
deriving DecidableEq

/-- `RenderedText { lines, links }` from markdown.rs. -/
structure RenderedText where
  lines : List RenderedLine
  links : List RenderedLink

/-- Model of `slice::binary_search_by_key` on a list of keys: per its
contract, on a sorted slice it returns `Ok(i)` with `keys[i] = target` when
the target occurs, and otherwise `Err(i)` where `i` is the insertion point,
i.e. the number of keys smaller than the target. -/
def binarySearchByKey (keys : List Nat) (target : Nat) : Except Nat Nat :=
  if keys.get? (keys.countP (fun k => decide (k < target))) = some target
  then .ok (keys.countP (fun k => decide (k < target)))
  else .error (keys.countP (fun k => decide (k < target)))

/-- The shared lookup pattern of `RenderedLine::rendered_index_for_source_index`
and `RenderedLine::source_index_for_rendered_index`: binary-search the
mappings by the key `f`, falling back to the closest preceding mapping
(`&self.source_mappings[ix - 1]`). When `ix = 0` the Rust `usize`
subtraction underflows and the indexing panics: modelled as `none`. -/
def mappingLookup (f : SourceMapping → Nat) (t : Nat) (ms : List SourceMapping) :
    Option SourceMapping :=
  match binarySearchByKey (ms.map f) t with
  | .ok ix => ms.get? ix
  | .error ix => if ix = 0 then none else ms.get? (ix - 1)

/-- Reference recursion equivalent to `mappingLookup` on sorted mappings:
the last mapping whose key is at most `t` (proved equivalent below). -/
def lastSat (f : SourceMapping → Nat) (t : Nat) : List SourceMapping → Option SourceMapping
  | [] => none
  | m :: rest => if f m ≤ t then some ((lastSat f t rest).getD m) else none

namespace RenderedLine

/-- `RenderedLine::rendered_index_for_source_index` from markdown.rs. -/
def rendered_index_for_source_index (line : RenderedLine) (source_index : Nat) : Option Nat :=
  (mappingLookup (fun m => m.source_index) source_index line.source_mappings).map
    (fun mapping => mapping.rendered_index + (source_index - mapping.source_index))

/-- `RenderedLine::source_index_for_rendered_index` from markdown.rs. -/
def source_index_for_rendered_index (line : RenderedLine) (rendered_index : Nat) : Option Nat :=
  (mappingLookup (fun m => m.rendered_index) rendered_index line.source_mappings).map
    (fun mapping => mapping.source_index + (rendered_index - mapping.rendered_index))

/-- `RenderedLine::source_index_for_position` from markdown.rs: both the
`Ok` and `Err` sides of the layout's hit test are translated through
`source_index_for_rendered_index` and re-wrapped. -/
def source_index_for_position (line : RenderedLine) (position : Point) :
    Option (Except Nat Nat) :=
  match line.layout.indexForPosition position with
  | .ok ix => (line.source_index_for_rendered_index ix).map .ok
  | .error ix => (line.source_index_for_rendered_index ix).map .error

end RenderedLine

/-- The loop of `RenderedText::source_index_for_position`: skip lines whose
bottom is above the point, returning `Err(line.source_end)` for a point in an
inter-line gap; past the last line, `Err` with the last line's `source_end`
(`lastEnd`, 0 when there are no lines at all). -/
def sourceIndexForPositionLoop (position : Point) :
    List RenderedLine → Nat → Option (Except Nat Nat)
  | [], lastEnd => some (.error lastEnd)
  | line :: rest, _ =>
    if position.y > line.layout.bottom then
      match rest with
      | next :: _ =>
        if position.y < next.layout.top then some (.error line.source_end)
        else sourceIndexForPositionLoop position rest line.source_end
      | [] => sourceIndexForPositionLoop position rest line.source_end
    else
      line.source_index_for_position position

/-- The loop of `RenderedText::position_for_source_index`: `break` when the
offset precedes the line's first mapped source index (overall `None`,
modelled `some none`), `continue` past lines that end before the offset;
a panic inside a line is `none`. -/
def positionForSourceIndexLoop (source_index : Nat) :
    List RenderedLine → Option (Option (Point × Int))
  | [] => some none
  | line :: rest =>
    match line.source_mappings.head? with
    | none => none
    | some first =>
      if source_index < first.source_index then some none
      else if source_index > line.source_end then positionForSourceIndexLoop source_index rest
      else
        match line.rendered_index_for_source_index source_index with
        | none => none
        | some rendered_index_within_line =>
          some ((line.layout.positionForIndex rendered_index_within_line).map
            (fun position => (position, line.layout.line_height)))

/-- Last index of character `c` in `s` (Rust `str::rfind(char)`). -/
def rfindChar (c : Char) : List Char → Option Nat
  | [] => none
  | a :: rest =>
    match rfindChar c rest with
    | some i => some (i + 1)
    | none => if a = c then some 0 else none

/-- First index of character `c` in `s` (Rust `str::find(char)`). -/
def findChar (c : Char) : List Char → Option Nat
  | [] => none
  | a :: rest => if a = c then some 0 else (findChar c rest).map (· + 1)

/-- The loop of `RenderedText::surrounding_word_range`: the first line whose
`source_end` is not before the offset is searched for the nearest space on
either side of the offset's rendered position; falling past all lines yields
the empty range at the offset. Slicing the rendered text out of bounds, the
first-mapping `unwrap`, and a failed index translation are panics (`none`). -/
def surroundingWordRangeLoop (source_index : Nat) :
    List RenderedLine → Option (Nat × Nat)
  | [] => some (source_index, source_index)
  | line :: rest =>
    if source_index > line.source_end then surroundingWordRangeLoop source_index rest
    else
      match line.source_mappings.head? with
      | none => none
      | some first =>
        match line.rendered_index_for_source_index source_index with
        | none => none
        | some r =>
          let line_rendered_start := first.rendered_index
          let rendered_index_in_line := r - line_rendered_start
          let text := line.layout.text
          if rendered_index_in_line ≤ text.length then
            let previous_space :=
              match rfindChar ' ' (text.take rendered_index_in_line) with
              | some idx => idx + 1
              | none => 0
            let next_space :=
              match findChar ' ' (text.drop rendered_index_in_line) with
              | some idx => rendered_index_in_line + idx
              | none => text.length
            match line.source_index_for_rendered_index (line_rendered_start + previous_space),
                  line.source_index_for_rendered_index (line_rendered_start + next_space) with
            | some a, some b => some (a, b)
            | _, _ => none
          else none

/-- The loop of `RenderedText::text_for_range`: collect the rendered text of
every line intersecting the range, clipped to it; `break` once a line starts
past the range end. Panics (first-mapping `unwrap`, failed translations,
reversed slice bounds) are `none`. -/
def textForRangeLoop (range_start range_end : Nat) :
    List RenderedLine → Option (List (List Char))
  | [] => some []
  | line :: rest =>
    if range_start > line.source_end then textForRangeLoop range_start range_end rest
    else
      match line.source_mappings.head? with
      | none => none
      | some first =>
        if range_end < first.source_index then some []
        else
          let text := line.layout.text
          match
            (if range_start < first.source_index then some 0
             else line.rendered_index_for_source_index range_start),
            ((if range_end > line.source_end then
                line.rendered_index_for_source_index line.source_end
              else line.rendered_index_for_source_index range_end).map
              (fun e => min e text.length)) with
          | some s, some e =>
            if s ≤ e then
              (textForRangeLoop range_start range_end rest).map
                (fun acc => ((text.drop s).take (e - s)) :: acc)
            else none
          | _, _ => none

namespace RenderedText

/-- `RenderedText::source_index_for_position` from markdown.rs. -/
def source_index_for_position (t : RenderedText) (position : Point) :
    Option (Except Nat Nat) :=
  sourceIndexForPositionLoop position t.lines 0

/-- `RenderedText::position_for_source_index` from markdown.rs. The outer
`Option` models panics, the inner one is the Rust `Option` result. -/
def position_for_source_index (t : RenderedText) (source_index : Nat) :
    Option (Option (Point × Int)) :=
  positionForSourceIndexLoop source_index t.lines

/-- `RenderedText::surrounding_word_range` from markdown.rs. -/
def surrounding_word_range (t : RenderedText) (source_index : Nat) : Option (Nat × Nat) :=
  surroundingWordRangeLoop source_index t.lines

/-- `RenderedText::text_for_range` from markdown.rs: the clipped line texts
joined with newlines. -/
def text_for_range (t : RenderedText) (range_start range_end : Nat) : Option (List Char) :=
  (textForRangeLoop range_start range_end t.lines).map
    (fun parts => List.intercalate ['\n'] parts)

end RenderedText

/-- `Selection { start, end, reversed, pending }` from markdown.rs
(the Rust field `end` is renamed `stop`). -/
structure Selection where
  start : Nat
  stop : Nat
  reversed : Bool
  pending : Bool
deriving DecidableEq

namespace Selection

/-- `Selection::tail` from markdown.rs. -/
def tail (s : Selection) : Nat :=
  if s.reversed then s.stop else s.start

/-- `Selection::set_head` from markdown.rs. The Rust method mutates in
sequence (`self.end = self.start; self.reversed = true; self.start = head`),
which the simultaneous record updates below reproduce. -/
def set_head (s : Selection) (head : Nat) : Selection :=
  if head < s.tail then
    if !s.reversed then { s with stop := s.start, reversed := true, start := head }
    else { s with start := head }
  else
    if s.reversed then { s with start := s.stop, reversed := false, stop := head }
    else { s with stop := head }

end Selection

/-- `ParsedMarkdown` from markdown.rs: the source snapshot the events were
parsed from, plus the parse output (event sequence and resolved code-block
languages). The output is abstracted as an opaque payload `E` computed by a
pure function of the source — the parser is deterministic and pure, and
per-block language resolution is best-effort and folded into the payload.
`events = none` is the `Default` (never-parsed) state. -/
structure ParsedMarkdown (E : Type) where
  source : String
  events : Option E
deriving DecidableEq

/-- `ParsedMarkdown::default()`. -/
def ParsedMarkdown.default (E : Type) : ParsedMarkdown E := { source := "", events := none }

/-- The state of a `Markdown` entity from markdown.rs, restricted to the
fields the parse scheduler and selection machinery read or write. The
in-flight background task `pending_parse : Option Task<...>` is modelled by
the source string it captured when spawned (`Some task` iff `some captured`);
UI handles (style, focus, options, copied-code-block set) are omitted as
they are never read by the embedded operations. -/
structure Markdown (E : Type) where
  source : String
  selection : Selection
  pressed_link : Option RenderedLink
  autoscroll_request : Option Nat
  should_reparse : Bool
  parsed_markdown : ParsedMarkdown E
  pending_parse : Option String

namespace Markdown

variable {E : Type}

/-- `Markdown::parse` from markdown.rs: empty source is a no-op; a pending
parse only sets the dirty flag; otherwise clear the flag and spawn a
background task capturing the current source. -/
def parse (st : Markdown E) : Markdown E :=
  if st.source = "" then st
  else if st.pending_parse.isSome then { st with should_reparse := true }
  else { st with should_reparse := false, pending_parse := some st.source }

/-- The completion closure spawned by `Markdown::parse`: commit the parse
result built from the captured source (`parseFn` is the pure background
computation), take the pending task, and re-parse if the dirty flag is set.
A no-op if no parse is in flight. -/
def finish_pending_parse (parseFn : String → E) (st : Markdown E) : Markdown E :=
  match st.pending_parse with
  | none => st
  | some captured =>
    let st1 := { st with
      parsed_markdown := { source := captured, events := some (parseFn captured) },
      pending_parse := none }
    if st1.should_reparse then parse st1 else st1

/-- `Markdown::new` / `Markdown::new_text` from markdown.rs: fresh state,
then an eager `parse`. -/
def new (source : String) : Markdown E :=
  parse {
    source := source,
    selection := ⟨0, 0, false, false⟩,
    pressed_link := none,
    autoscroll_request := none,
    should_reparse := false,
    parsed_markdown := ParsedMarkdown.default E,
    pending_parse := none }

/-- `Markdown::append` from markdown.rs. -/
def append (st : Markdown E) (text : String) : Markdown E :=
  parse { st with source := st.source ++ text }

/-- `Markdown::reset` from markdown.rs: a no-op when the source is unchanged;
otherwise replace the source, reset selection/autoscroll/pending/dirty/cache
and re-parse. (The code does not touch `pressed_link`.) -/
def reset (st : Markdown E) (source : String) : Markdown E :=
  if source = st.source then st
  else
    parse { st with
      source := source,
      selection := ⟨0, 0, false, false⟩,
      autoscroll_request := none,
      pending_parse := none,
      should_reparse := false,
      parsed_markdown := ParsedMarkdown.default E }

/-- `Markdown::copy` from markdown.rs: a guard for empty/reversed selections,
otherwise the clipboard receives `text_for_range(start..end)`. The outer
`Option` models panics; the inner one is the clipboard write (`none` = no
write performed). `copy` takes `&self` and mutates no state. -/
def copy (st : Markdown E) (text : RenderedText) : Option (Option (List Char)) :=
  if st.selection.stop ≤ st.selection.start then some none
  else (text.text_for_range st.selection.start st.selection.stop).map some

/-- The states a `Markdown` entity can visit through its public mutating
surface: construction, `append`, `reset`, and completion of the in-flight
background parse. -/
inductive Reachable (parseFn : String → E) : Markdown E → Prop
  | new (source : String) : Reachable parseFn (Markdown.new source)
  | append {st : Markdown E} (text : String) :
      Reachable parseFn st → Reachable parseFn (st.append text)
  | reset {st : Markdown E} (source : String) :
      Reachable parseFn st → Reachable parseFn (st.reset source)
  | complete {st : Markdown E} :
      Reachable parseFn st → Reachable parseFn (st.finish_pending_parse parseFn)

end Markdown

/-- Whether the source offset lies inside a rendered run of the line's
mappings: the closest preceding mapping (the last one whose `source_index`
is at most the offset) either is the final mapping or interpolates to a
rendered index strictly before the next mapping's `rendered_index`. Offsets
violating this are source bytes with no rendered counterpart (e.g. markdown
markup stripped from the rendered text). -/
def insideRun (source_index : Nat) : List SourceMapping → Bool
  | [] => false
  | [m] => decide (m.source_index ≤ source_index)
  | m :: m' :: rest =>
    if m'.source_index ≤ source_index then insideRun source_index (m' :: rest)
    else
      decide (m.source_index ≤ source_index) &&
      decide (m.rendered_index + (source_index - m.source_index) < m'.rendered_index)

/-- The §3 invariant on a line's mappings: sorted (strictly increasing) in
both fields. -/
def SortedMappings (ms : List SourceMapping) : Prop :=
  List.Pairwise (fun a b => a.source_index < b.source_index) ms ∧
  List.Pairwise (fun a b => a.rendered_index < b.rendered_index) ms

/-- Well-formedness of a built `RenderedLine`: at least one mapping (the
builder records a mapping point per text insertion and only flushes
non-empty lines), sorted in both fields. -/
def WFLine (l : RenderedLine) : Prop :=
  l.source_mappings ≠ [] ∧ SortedMappings l.source_mappings

/-- Builder invariant relating consecutive mappings: the source advances at
least as much as the rendered text between insertion points (`push_text`
appends `text.len()` rendered bytes covering `text.len()` source bytes
starting at the fragment's source offset, and event ranges are ordered). -/
def NonOverlap (ms : List SourceMapping) : Prop :=
  List.Pairwise
    (fun a b => a.source_index + b.rendered_index ≤ b.source_index + a.rendered_index) ms

/-- Builder invariant on a line's extent: the final mapping's rendered index
lies within the rendered text, and `source_end` (set from
`current_source_index` at flush) is the final fragment's source offset plus
the length of rendered text after it. -/
def extentOK (l : RenderedLine) : Bool :=
  match l.source_mappings.head?, l.source_mappings.getLast? with
  | some mf, some ml =>
    decide (ml.rendered_index ≤ mf.rendered_index + l.layout.text.length) &&
    decide (l.source_end + ml.rendered_index =
      ml.source_index + mf.rendered_index + l.layout.text.length)
  | _, _ => true

/-- Contract of the external layout collaborator: a position reported for a
rendered index hit-tests back to that index and lies within the line's
vertical bounds. -/
def LayoutContract (l : TextLayout) : Prop :=
  ∀ i p, l.positionForIndex i = some p →
    l.indexForPosition p = .ok i ∧ l.top ≤ p.y ∧ p.y ≤ l.bottom

/-- Geometric well-formedness of the line stack: lines occupy disjoint
vertical bands in order. -/
def LinesSeparated (lines : List RenderedLine) : Prop :=
  List.Chain' (fun a b => a.layout.bottom < b.layout.top) lines ∧
  ∀ l ∈ lines, l.layout.top ≤ l.layout.bottom

/-- Whether the line's source span `[first mapping, source_end]` contains
the offset. -/
def lineContains (l : RenderedLine) (si : Nat) : Bool :=
  match l.source_mappings.head? with
  | none => false
  | some first => decide (first.source_index ≤ si) && decide (si ≤ l.source_end)

/-- The line `surrounding_word_range`'s loop settles on: the first line whose
`source_end` is not before the offset. -/
def findFirstLine (t : RenderedText) (si : Nat) : Option RenderedLine :=
  t.lines.find? (fun l => decide (si ≤ l.source_end))

/-- Concrete layout for witnesses: index `i` renders at x-coordinate `i` on
the single row `y = 0`. -/
def wLayout : TextLayout := {
  text := "hello".toList, top := 0, bottom := 0, line_height := 1,
  indexForPosition := fun p => .ok p.x.toNat,
  positionForIndex := fun i => some ⟨(i : Int), 0⟩ }

/-- Concrete single-mapping line for witnesses. -/
def wLine : RenderedLine :=
  { layout := wLayout, source_mappings := [⟨0, 0⟩], source_end := 5 }

/-- Concrete one-line rendered text for witnesses. -/
def wText : RenderedText := { lines := [wLine], links := [] }

/-- Concrete line whose first mapping starts past source offset 0, for the
below-first-mapping panic. -/
def lowLine : RenderedLine :=
  { layout := wLayout, source_mappings := [⟨5, 5⟩], source_end := 9 }

/-- Concrete line with a source gap between rendered fragments: rendered
text `"ab cd"`, fragment `"ab "` at source 0, fragment `"cd"` at source 4
(source offset 3 is unrendered markup). -/
def gapLine : RenderedLine := {
  layout := { text := "ab cd".toList, top := 0, bottom := 0, line_height := 1,
              indexForPosition := fun _ => .error 0, positionForIndex := fun _ => none },
  source_mappings := [⟨0, 0⟩, ⟨3, 4⟩],
  source_end := 6 }

/-- Concrete one-line rendered text around `gapLine`. -/
def gapText : RenderedText := { lines := [gapLine], links := [] }

/-- Concrete link for the `reset` counterexample. -/
def wLink : RenderedLink := { source_range := (0, 1), destination_url := "https://e.com" }

/-- Concrete `Markdown` state holding a pressed link, for the `reset`
counterexample. -/
def wState : Markdown Nat := {
  source := "a",
  selection := ⟨0, 0, false, false⟩,
  pressed_link := some wLink,
  autoscroll_request := none,
  should_reparse := false,
  parsed_markdown := ParsedMarkdown.default Nat,
  pending_parse := none }

/-- `without_fences` helper: first index at which `pat` occurs as a
contiguous sublist (Rust `str::find(&str)`). -/
def findSubIndex (pat : List Char) : List Char → Option Nat
  | [] => if pat.isEmpty then some 0 else none
  | s@(_ :: rest) =>
    if pat.isPrefixOf s then some 0 else (findSubIndex pat rest).map (· + 1)

/-- `without_fences` helper: last index at which `pat` occurs as a
contiguous sublist (Rust `str::rfind(&str)`). -/
def rfindSubIndex (pat : List Char) : List Char → Option Nat
  | [] => if pat.isEmpty then some 0 else none
  | s@(_ :: rest) =>
    match rfindSubIndex pat rest with
    | some i => some (i + 1)
    | none => if pat.isPrefixOf s then some 0 else none

/-- Whether `pat` occurs as a contiguous sublist of `s`. -/
def containsSub (pat s : List Char) : Bool :=
  (findSubIndex pat s).isSome

/-- The triple-backtick fence delimiter. -/
def fence : List Char := ['`', '`', '`']

/-- `without_fences` from markdown.rs: strip an opening fence (and, with it,
everything through the next newline, covering the language name) and a
closing fence. -/
def without_fences (markdown : List Char) : List Char :=
  let md1 :=
    match findSubIndex fence markdown with
    | some opening_backticks =>
      let m := markdown.drop opening_backticks
      match findChar '\n' m with
      | some newline => m.drop (newline + 1)
      | none => m
    | none => markdown
  match rfindSubIndex fence md1 with
  | some closing_backticks => md1.take closing_backticks
  | none => md1

/-! ## Scheduler lemmas -/

theorem String.append_ne_empty (s t : String) (h : s ≠ "") : s ++ t ≠ "" := by
  intro he
  apply h
  cases s with
  | mk d =>
    cases t with
    | mk d2 =>
      have hdd : d ++ d2 = [] := by
        have := congrArg String.data he
        simpa using this
      have hd : d = [] := by
        cases d with
        | nil => rfl
        | cons a as => simp at hdd
      subst hd; rfl

theorem Markdown.parse_source {E : Type} (st : Markdown E) : st.parse.source = st.source := by
  unfold Markdown.parse
  split
  · rfl
  · split <;> rfl

theorem Markdown.parse_of_source_empty {E : Type} (st : Markdown E) (h : st.source = "") :
    st.parse = st := by
  unfold Markdown.parse
  rw [if_pos h]

theorem Markdown.parse_of_pending {E : Type} (st : Markdown E) (c : String)
    (h1 : st.source ≠ "") (h2 : st.pending_parse = some c) :
    st.parse = { st with should_reparse := true } := by
  unfold Markdown.parse
  rw [if_neg h1, h2]
  rfl

theorem Markdown.parse_spawn {E : Type} (st : Markdown E)
    (h1 : st.source ≠ "") (h2 : st.pending_parse = none) :
    st.parse = { st with should_reparse := false, pending_parse := some st.source } := by
  unfold Markdown.parse
  rw [if_neg h1, h2]
  rfl

theorem Markdown.finish_of_pending {E : Type} (parseFn : String → E) (st : Markdown E)
    (c : String) (h : st.pending_parse = some c) :
    st.finish_pending_parse parseFn =
      (if st.should_reparse = true then
        ({ st with
           parsed_markdown := { source := c, events := some (parseFn c) }
           pending_parse := none } : Markdown E).parse
       else
        { st with
          parsed_markdown := { source := c, events := some (parseFn c) }
          pending_parse := none }) := by
  unfold Markdown.finish_pending_parse
  rw [h]

theorem Markdown.parse_pending_shape {E : Type} (st : Markdown E) :
    st.parse.pending_parse = st.pending_parse ∨
      (st.parse.pending_parse = some st.source ∧ st.source ≠ "") := by
  unfold Markdown.parse
  split
  · exact Or.inl rfl
  · rename_i hne
    split
    · exact Or.inl rfl
    · exact Or.inr ⟨rfl, hne⟩

/-- While a parse is in flight, the source is non-empty: `parse` only spawns
on a non-empty source, `append` preserves non-emptiness, and `reset` and
completion clear the pending task before any re-parse. -/
theorem Markdown.reachable_pending_ne_empty {E : Type} (parseFn : String → E)
    {st : Markdown E} (h : Markdown.Reachable parseFn st) :
    ∀ c, st.pending_parse = some c → st.source ≠ "" := by
  induction h with
  | new source =>
    intro c hc
    rcases Markdown.parse_pending_shape
      ({ source := source, selection := ⟨0, 0, false, false⟩, pressed_link := none,
         autoscroll_request := none, should_reparse := false,
         parsed_markdown := ParsedMarkdown.default E, pending_parse := none } : Markdown E)
      with hp | hp
    · rw [Markdown.new, hp] at hc
      exact absurd hc (by simp)
    · rw [Markdown.new, Markdown.parse_source]
      exact hp.2
  | append text _ ih =>
    rename_i st' _
    intro c hc
    rw [Markdown.append, Markdown.parse_source]
    rcases Markdown.parse_pending_shape { st' with source := st'.source ++ text } with hp | hp
    · rw [Markdown.append, hp] at hc
      exact String.append_ne_empty _ _ (ih c hc)
    · exact hp.2
  | reset source _ ih =>
    rename_i st' _
    intro c hc
    unfold Markdown.reset at hc ⊢
    by_cases hss : source = st'.source
    · rw [if_pos hss] at hc ⊢
      exact ih c hc
    · rw [if_neg hss] at hc ⊢
      rw [Markdown.parse_source]
      rcases Markdown.parse_pending_shape
        ({ st' with
           source := source
           selection := ⟨0, 0, false, false⟩
           autoscroll_request := none
           pending_parse := none
           should_reparse := false
           parsed_markdown := ParsedMarkdown.default E } : Markdown E) with hp | hp
      · rw [hp] at hc
        exact absurd hc (by simp)
      · exact hp.2
  | complete _ ih =>
    rename_i st' _
    intro c hc
    cases hpp : st'.pending_parse with
    | none =>
      unfold Markdown.finish_pending_parse at hc ⊢
      rw [hpp] at hc ⊢
      exact ih c hc
    | some captured =>
      have hsrc : st'.source ≠ "" := ih captured hpp
      rw [Markdown.finish_of_pending parseFn st' captured hpp] at hc ⊢
      by_cases hsr : st'.should_reparse = true
      · rw [if_pos hsr] at hc ⊢
        rw [Markdown.parse_source]
        rcases Markdown.parse_pending_shape
          ({ st' with
             parsed_markdown := { source := captured, events := some (parseFn captured) }
             pending_parse := none } : Markdown E) with hp | hp
        · rw [hp] at hc
          exact absurd hc (by simp)
        · exact hp.2
      · rw [if_neg hsr] at hc
        exact absurd hc (by simp)

/-! ## Claims about the parse scheduler (C2, C3, C8) -/

/-- Claim C2: for every reachable `Markdown` state with a parse in flight,
calling `parse` spawns no second task and instead sets the `should_reparse`
(dirty) flag, leaving the pending task and the parsed-document cache
unchanged. -/
theorem C2_parse_while_pending {E : Type} (parseFn : String → E) (st : Markdown E)
    (c : String) (hr : Markdown.Reachable parseFn st) (hp : st.pending_parse = some c) :
    st.parse.pending_parse = st.pending_parse ∧
    st.parse.should_reparse = true ∧
    st.parse.parsed_markdown = st.parsed_markdown := by
  have hsrc : st.source ≠ "" := Markdown.reachable_pending_ne_empty parseFn hr c hp
  rw [Markdown.parse_of_pending st c hsrc hp]
  exact ⟨rfl, rfl, rfl⟩

/-- Witness for C2 at the reachable state `Markdown.new "a"`, whose initial
parse is still in flight. -/
theorem C2_witness :
    (Markdown.new "a" : Markdown Nat).parse.pending_parse
        = (Markdown.new "a" : Markdown Nat).pending_parse ∧
    (Markdown.new "a" : Markdown Nat).parse.should_reparse = true ∧
    (Markdown.new "a" : Markdown Nat).parse.parsed_markdown
        = (Markdown.new "a" : Markdown Nat).parsed_markdown :=
  C2_parse_while_pending String.length (Markdown.new "a") "a"
    (Markdown.Reachable.new "a") rfl

/-- Claim C3: when an in-flight parse completes with the dirty flag set,
exactly one new parse is immediately scheduled reading the current source
(not the captured stale one) and the flag is cleared; consequently appending
while a parse is in flight ends, after the stale and the retried parse both
complete, with the fully appended source as the committed snapshot. -/
theorem C3_complete_with_dirty {E : Type} (parseFn : String → E) (st : Markdown E)
    (captured : String) (hr : Markdown.Reachable parseFn st)
    (hp : st.pending_parse = some captured) :
    (st.should_reparse = true →
      (st.finish_pending_parse parseFn).pending_parse = some st.source ∧
      (st.finish_pending_parse parseFn).should_reparse = false ∧
      (st.finish_pending_parse parseFn).parsed_markdown =
        { source := captured, events := some (parseFn captured) }) ∧
    (∀ text : String,
      (((st.append text).finish_pending_parse parseFn).finish_pending_parse
          parseFn).parsed_markdown.source = st.source ++ text) := by
  have hsrc : st.source ≠ "" := Markdown.reachable_pending_ne_empty parseFn hr captured hp
  constructor
  · intro hdirty
    simp [Markdown.finish_pending_parse, Markdown.parse, hp, hsrc, hdirty]
  · intro text
    have hsrc2 : st.source ++ text ≠ "" := String.append_ne_empty _ _ hsrc
    simp [Markdown.append, Markdown.finish_pending_parse, Markdown.parse, hp, hsrc2]

/-- Witness for C3 at the reachable state `(Markdown.new "a").append "b"`,
which has the initial parse of `"a"` in flight and the dirty flag set. -/
theorem C3_witness :
    ((((Markdown.new "a" : Markdown Nat).append "b").finish_pending_parse
        String.length).pending_parse = some "ab" ∧
      (((Markdown.new "a" : Markdown Nat).append "b").finish_pending_parse
        String.length).should_reparse = false ∧
      (((Markdown.new "a" : Markdown Nat).append "b").finish_pending_parse
        String.length).parsed_markdown = { source := "a", events := some 1 }) ∧
    (((((Markdown.new "a" : Markdown Nat).append "b").append "c").finish_pending_parse
        String.length).finish_pending_parse String.length).parsed_markdown.source = "abc" := by
  constructor
  · exact
      (C3_complete_with_dirty String.length ((Markdown.new "a").append "b") "a"
        (Markdown.Reachable.append "b" (Markdown.Reachable.new "a")) rfl).1 rfl
  · exact
      (C3_complete_with_dirty String.length ((Markdown.new "a").append "b") "a"
        (Markdown.Reachable.append "b" (Markdown.Reachable.new "a")) rfl).2 "c"

/-- Claim C8: calling `parse` on a document whose source is empty is a
no-op: the state (pending task, parsed cache, dirty flag) is untouched. -/
theorem C8_parse_empty_noop {E : Type} (st : Markdown E) (h : st.source = "") :
    st.parse = st := by
  unfold Markdown.parse
  rw [if_pos h]

/-- Witness for C8 at a concrete empty-source state. -/
theorem C8_witness :
    (Markdown.mk "" ⟨0, 0, false, false⟩ none none false
        (ParsedMarkdown.default Nat) none).parse =
      Markdown.mk "" ⟨0, 0, false, false⟩ none none false
        (ParsedMarkdown.default Nat) none :=
  C8_parse_empty_noop _ rfl

/-! ## Claim C4: reset (corrected — pressed_link is not cleared) -/

/-- Counterexample to C4 as stated: resetting `wState` (which holds a
pressed link) to the different source `"b"` leaves `pressed_link` set;
`Markdown::reset` never touches that field. -/
theorem C4_counterexample :
    "b" ≠ wState.source ∧
    (wState.reset "b").source = "b" ∧
    (wState.reset "b").pressed_link = some wLink ∧
    (wState.reset "b").pressed_link ≠ none := by
  refine ⟨by decide, rfl, rfl, by decide⟩

/-- Claim C4 (amended): `reset` with a source different from the current one
replaces the source, clears the selection back to the default empty
selection, resets the parsed cache and schedules a re-parse — but leaves the
pressed link unchanged. -/
theorem C4_reset_amended {E : Type} (st : Markdown E) (source : String)
    (hne : source ≠ st.source) :
    (st.reset source).source = source ∧
    (st.reset source).selection = ⟨0, 0, false, false⟩ ∧
    (st.reset source).pressed_link = st.pressed_link ∧
    (source ≠ "" → (st.reset source).pending_parse = some source ∧
      (st.reset source).should_reparse = false) ∧
    (source = "" → (st.reset source).parsed_markdown = ParsedMarkdown.default E) := by
  unfold Markdown.reset
  rw [if_neg hne]
  by_cases hse : source = ""
  · rw [Markdown.parse_of_source_empty _ hse]
    exact ⟨rfl, rfl, rfl, fun h => absurd hse h, fun _ => rfl⟩
  · rw [Markdown.parse_spawn _ hse rfl]
    exact ⟨rfl, rfl, rfl, fun _ => ⟨rfl, rfl⟩, fun h => absurd h hse⟩

/-- Witness for the amended C4 at the concrete state `wState`. -/
theorem C4_witness :
    (wState.reset "b").source = "b" ∧
    (wState.reset "b").selection = ⟨0, 0, false, false⟩ ∧
    (wState.reset "b").pressed_link = wState.pressed_link ∧
    (wState.reset "b").pending_parse = some "b" ∧
    (wState.reset "b").should_reparse = false := by
  have h := C4_reset_amended wState "b" (by decide)
  exact ⟨h.1, h.2.1, h.2.2.1, (h.2.2.2.1 (by decide)).1, (h.2.2.2.1 (by decide)).2⟩

/-! ## Claim C5: Selection::set_head -/

/-- Claim C5: for a selection with `start ≤ end` and any head offset,
`set_head` preserves `start ≤ end`, fixes the non-dragged endpoint `tail`,
and the endpoints become exactly `min(old tail, head)` / `max(old tail, head)`. -/
theorem C5_set_head (s : Selection) (head : Nat) (hse : s.start ≤ s.stop) :
    (s.set_head head).start ≤ (s.set_head head).stop ∧
    (s.set_head head).tail = s.tail ∧
    (s.set_head head).start = min s.tail head ∧
    (s.set_head head).stop = max s.tail head := by
  rcases s with ⟨sstart, sstop, rev, pend⟩
  cases rev
  · by_cases hlt : head < sstart <;>
      · simp [Selection.set_head, Selection.tail, hlt]
        omega
  · by_cases hlt : head < sstop <;>
      · simp [Selection.set_head, Selection.tail, hlt]
        omega

/-- Witness for C5 at a concrete reversed selection dragged rightward past
its tail. -/
theorem C5_witness :
    ((⟨2, 5, true, true⟩ : Selection).set_head 9).start ≤
      ((⟨2, 5, true, true⟩ : Selection).set_head 9).stop ∧
    ((⟨2, 5, true, true⟩ : Selection).set_head 9).tail =
      (⟨2, 5, true, true⟩ : Selection).tail ∧
    ((⟨2, 5, true, true⟩ : Selection).set_head 9).start =
      min (⟨2, 5, true, true⟩ : Selection).tail 9 ∧
    ((⟨2, 5, true, true⟩ : Selection).set_head 9).stop =
      max (⟨2, 5, true, true⟩ : Selection).tail 9 :=
  C5_set_head ⟨2, 5, true, true⟩ 9 (by decide)

/-! ## Claim C7: copy -/

/-- Claim C7: the copy action is a no-op (no clipboard write, no panic, and
`copy` takes the state immutably so no state change) when the selection
satisfies `end ≤ start`; otherwise it writes exactly
`text_for_range(selection.start..selection.end)` to the clipboard. -/
theorem C7_copy_guard {E : Type} (st : Markdown E) (t : RenderedText) :
    (st.selection.stop ≤ st.selection.start → st.copy t = some none) ∧
    (st.selection.start < st.selection.stop →
      st.copy t = (t.text_for_range st.selection.start st.selection.stop).map some) := by
  constructor <;> intro h <;> unfold Markdown.copy
  · rw [if_pos h]
  · rw [if_neg (by omega)]

/-- Witness for C7: the empty selection of `wState` makes copy a no-op on
the concrete rendered text `wText`. -/
theorem C7_witness : wState.copy wText = some none :=
  (C7_copy_guard wState wText).1 (by decide)

/-! ## Claim C9: without_fences -/

theorem rfindSubIndex_eq_none (pat : List Char) :
    ∀ s : List Char, findSubIndex pat s = none → rfindSubIndex pat s = none := by
  intro s
  induction s with
  | nil =>
    intro h
    unfold findSubIndex at h
    unfold rfindSubIndex
    exact h
  | cons a rest ih =>
    intro h
    unfold findSubIndex at h
    unfold rfindSubIndex
    by_cases hp : pat.isPrefixOf (a :: rest)
    · simp [hp] at h
    · simp only [hp, if_false, Bool.false_eq_true] at h
      have hrest : findSubIndex pat rest = none := by
        cases hfr : findSubIndex pat rest with
        | none => rfl
        | some i => simp [hfr] at h
      simp [ih hrest, hp]

/-- Claim C9: `without_fences` strips a fenced block's delimiters and
language line (`"```rust\nlet x = 5;\n```"` becomes `"let x = 5;\n"`), is the
identity on `"plain text"`, and more generally is the identity on every
input containing no occurrence of triple backticks. -/
theorem C9_without_fences :
    without_fences ("```rust\nlet x = 5;\n```".toList) = "let x = 5;\n".toList ∧
    without_fences ("plain text".toList) = "plain text".toList ∧
    ∀ s : List Char, containsSub fence s = false → without_fences s = s := by
  refine ⟨by decide, by decide, ?_⟩
  intro s h
  have hfind : findSubIndex fence s = none := by
    unfold containsSub at h
    exact Option.not_isSome_iff_eq_none.mp (by simp [h])
  unfold without_fences
  simp [hfind, rfindSubIndex_eq_none fence s hfind]

/-- Witness for C9's universally quantified identity clause at a concrete
fence-free input. -/
theorem C9_witness : without_fences ("no fences here".toList) = "no fences here".toList :=
  C9_without_fences.2.2 ("no fences here".toList) (by decide)

/-! ## Mapping-lookup lemmas (shared by C1, C6, C10) -/

theorem lastSat_none_of_gt (f : SourceMapping → Nat) (t : Nat) :
    ∀ ms : List SourceMapping, (∀ m ∈ ms, t < f m) → lastSat f t ms = none := by
  intro ms h
  cases ms with
  | nil => rfl
  | cons m rest =>
    unfold lastSat
    rw [if_neg (by have := h m (by simp); omega)]


theorem lastSat_some_facts (f : SourceMapping → Nat) (t : Nat) :
    ∀ (ms : List SourceMapping) (m : SourceMapping),
      lastSat f t ms = some m → m ∈ ms ∧ f m ≤ t := by
  intro ms
  induction ms with
  | nil => intro m h; exact absurd h (by simp [lastSat])
  | cons a rest ih =>
    intro m h
    unfold lastSat at h
    by_cases ha : f a ≤ t
    · rw [if_pos ha] at h
      cases hr : lastSat f t rest with
      | none =>
        rw [hr] at h
        simp only [Option.getD_none, Option.some.injEq] at h
        subst h
        exact ⟨by simp, ha⟩
      | some m' =>
        rw [hr] at h
        simp only [Option.getD_some, Option.some.injEq] at h
        subst h
        have hm := ih m' hr
        exact ⟨List.mem_cons_of_mem a hm.1, hm.2⟩
    · rw [if_neg ha] at h
      exact absurd h (by simp)

theorem mappingLookup_eq_lastSat (f : SourceMapping → Nat) (t : Nat) :
    ∀ ms : List SourceMapping, List.Pairwise (fun a b => f a < f b) ms →
      mappingLookup f t ms = lastSat f t ms := by
  intro ms
  induction ms with
  | nil => intro _; rfl
  | cons m rest ih =>
    intro hp
    have hall : ∀ x ∈ rest, f m < f x := (List.pairwise_cons.mp hp).1
    have hrest : List.Pairwise (fun a b => f a < f b) rest := (List.pairwise_cons.mp hp).2
    rcases Nat.lt_trichotomy (f m) t with hlt | heq | hgt
    · -- f m < t: the head contributes one to the insertion point
      have ihx := ih hrest
      unfold mappingLookup binarySearchByKey at ihx ⊢
      have hc : (List.map f (m :: rest)).countP (fun k => decide (k < t)) =
          (List.map f rest).countP (fun k => decide (k < t)) + 1 := by
        simp [List.countP_cons, hlt, Nat.add_comm]
      rw [hc]
      have hget : (List.map f (m :: rest)).get?
            ((List.map f rest).countP (fun k => decide (k < t)) + 1)
          = (List.map f rest).get? ((List.map f rest).countP (fun k => decide (k < t))) := by
        simp
      rw [hget]
      generalize hcdef : (List.map f rest).countP (fun k => decide (k < t)) = c at ihx ⊢
      have hclen : c ≤ rest.length := by
        have h1 := List.countP_le_length (fun k => decide (k < t)) (l := List.map f rest)
        rw [hcdef, List.length_map] at h1
        exact h1
      unfold lastSat
      rw [if_pos (Nat.le_of_lt hlt)]
      by_cases hat : (List.map f rest).get? c = some t
      · rw [if_pos hat] at ihx ⊢
        show (m :: rest).get? (c + 1) = some ((lastSat f t rest).getD m)
        rw [List.get?_cons_succ]
        have hcl : c < rest.length := by
          by_contra hge
          rw [List.get?_eq_none.mpr (by rw [List.length_map]; omega)] at hat
          exact absurd hat (by simp)
        have ihy : rest.get? c = lastSat f t rest := ihx
        cases hrg : rest.get? c with
        | none => exact absurd (List.get?_eq_none.mp hrg) (by omega)
        | some x =>
          rw [hrg] at ihy
          rw [← ihy]
          simp
      · rw [if_neg hat] at ihx ⊢
        show (if c + 1 = 0 then none else (m :: rest).get? (c + 1 - 1))
            = some ((lastSat f t rest).getD m)
        rw [if_neg (Nat.succ_ne_zero c)]
        have ihy : (if c = 0 then none else rest.get? (c - 1)) = lastSat f t rest := ihx
        by_cases hc0 : c = 0
        · rw [if_pos hc0] at ihy
          rw [hc0]
          show (m :: rest).get? 0 = some ((lastSat f t rest).getD m)
          rw [← ihy]
          simp
        · rw [if_neg hc0] at ihy
          have hstep : c + 1 - 1 = (c - 1) + 1 := by omega
          rw [hstep, List.get?_cons_succ]
          cases hrg : rest.get? (c - 1) with
          | none =>
            have := List.get?_eq_none.mp hrg
            omega
          | some x =>
            rw [hrg] at ihy
            rw [← ihy]
            simp
    · -- f m = t: the head is the exact hit at insertion point 0
      have hzero : (List.map f rest).countP (fun k => decide (k < t)) = 0 := by
        apply List.countP_eq_zero.mpr
        intro a ha
        rcases List.mem_map.mp ha with ⟨x, hx, hfx⟩
        have := hall x hx
        simp only [decide_eq_true_eq]
        omega
      have hc : (List.map f (m :: rest)).countP (fun k => decide (k < t)) = 0 := by
        simp [List.countP_cons, hzero, heq]
      unfold mappingLookup binarySearchByKey
      rw [hc]
      have hget : (List.map f (m :: rest)).get? 0 = some t := by simp [heq]
      rw [if_pos hget]
      show (m :: rest).get? 0 = lastSat f t (m :: rest)
      unfold lastSat
      rw [if_pos (Nat.le_of_eq heq)]
      rw [lastSat_none_of_gt f t rest (by intro x hx; have := hall x hx; omega)]
      simp
    · -- t < f m: insertion point 0, fallback underflow (panic / none)
      have hzero : (List.map f rest).countP (fun k => decide (k < t)) = 0 := by
        apply List.countP_eq_zero.mpr
        intro a ha
        rcases List.mem_map.mp ha with ⟨x, hx, hfx⟩
        have := hall x hx
        simp only [decide_eq_true_eq]
        omega
      have hc : (List.map f (m :: rest)).countP (fun k => decide (k < t)) = 0 := by
        simp only [List.map_cons, List.countP_cons, hzero]
        simp only [decide_eq_true_eq]
        rw [if_neg (by omega)]
      unfold mappingLookup binarySearchByKey
      rw [hc]
      have hget : (List.map f (m :: rest)).get? 0 = some (f m) := by simp
      rw [if_neg (by rw [hget]; intro hcon; injection hcon with hcon; omega)]
      show (if (0 : Nat) = 0 then none else (m :: rest).get? (0 - 1))
          = lastSat f t (m :: rest)
      rw [if_pos rfl]
      unfold lastSat
      rw [if_neg (by omega)]

/-! ## Claim C10: per-line offset translation stays in bounds -/

/-- Claim C10: on a line with non-empty, sorted mappings, both per-line
translations never index out of bounds (the fallback access at `ix - 1`
succeeds) provided the query is at least the first mapping's corresponding
field; the precondition is necessary — on a line whose first mapping starts
at 5, querying 3 underflows the `ix - 1` fallback (a panic, `none`). -/
theorem C10_translation_in_bounds :
    (∀ (line : RenderedLine) (i : Nat) (mf : SourceMapping),
      SortedMappings line.source_mappings →
      line.source_mappings.head? = some mf →
      (mf.source_index ≤ i → (line.rendered_index_for_source_index i).isSome) ∧
      (mf.rendered_index ≤ i → (line.source_index_for_rendered_index i).isSome)) ∧
    lowLine.rendered_index_for_source_index 3 = none ∧
    lowLine.source_index_for_rendered_index 3 = none := by
  refine ⟨?_, by decide, by decide⟩
  intro line i mf hs hh
  cases hms : line.source_mappings with
  | nil => rw [hms] at hh; exact absurd hh (by simp)
  | cons a rest =>
    rw [hms] at hh hs
    simp only [List.head?_cons, Option.some.injEq] at hh
    subst hh
    constructor <;> intro hle
    · unfold RenderedLine.rendered_index_for_source_index
      rw [hms, mappingLookup_eq_lastSat _ _ _ hs.1]
      unfold lastSat
      rw [if_pos hle]
      simp
    · unfold RenderedLine.source_index_for_rendered_index
      rw [hms, mappingLookup_eq_lastSat _ _ _ hs.2]
      unfold lastSat
      rw [if_pos hle]
      simp

/-- Witness for C10's universal clause at the concrete line `wLine`. -/
theorem C10_witness :
    (wLine.rendered_index_for_source_index 2).isSome = true ∧
    (wLine.source_index_for_rendered_index 2).isSome = true := by
  have h := C10_translation_in_bounds.1 wLine 2 ⟨0, 0⟩ (by constructor <;> decide) rfl
  exact ⟨h.1 (by decide), h.2 (by decide)⟩

theorem getLast?_cons_isSome (a : SourceMapping) (l : List SourceMapping) :
    ∃ x, (a :: l).getLast? = some x := by
  induction l generalizing a with
  | nil => exact ⟨a, rfl⟩
  | cons b l' ih =>
    rcases ih b with ⟨x, hx⟩
    exact ⟨x, by rwa [List.getLast?_cons_cons]⟩

/-- An offset inside a rendered run has a well-defined closest preceding
mapping that also wins the reverse (rendered-keyed) lookup at the
interpolated rendered index. -/
theorem insideRun_lastSat (si : Nat) :
    ∀ ms : List SourceMapping,
      List.Pairwise (fun a b => a.source_index < b.source_index) ms →
      List.Pairwise (fun a b => a.rendered_index < b.rendered_index) ms →
      insideRun si ms = true →
      ∃ m, lastSat (fun x => x.source_index) si ms = some m ∧
        m.source_index ≤ si ∧ m ∈ ms ∧
        lastSat (fun x => x.rendered_index)
          (m.rendered_index + (si - m.source_index)) ms = some m ∧
        ∃ ml, ms.getLast? = some ml ∧
          (m = ml ∨ m.rendered_index + (si - m.source_index) < ml.rendered_index) := by
  intro ms
  induction ms with
  | nil => intro _ _ h; exact absurd h (by simp [insideRun])
  | cons m rest ih =>
    intro hps hpr hin
    have hallS : ∀ x ∈ rest, m.source_index < x.source_index := (List.pairwise_cons.mp hps).1
    have hallR : ∀ x ∈ rest, m.rendered_index < x.rendered_index := (List.pairwise_cons.mp hpr).1
    have hpsr : List.Pairwise (fun a b => a.source_index < b.source_index) rest :=
      (List.pairwise_cons.mp hps).2
    have hprr : List.Pairwise (fun a b => a.rendered_index < b.rendered_index) rest :=
      (List.pairwise_cons.mp hpr).2
    cases rest with
    | nil =>
      have hle : m.source_index ≤ si := by
        unfold insideRun at hin
        exact of_decide_eq_true hin
      refine ⟨m, ?_, hle, by simp, ?_, m, rfl, Or.inl rfl⟩
      · unfold lastSat
        rw [if_pos hle]
        rfl
      · unfold lastSat
        rw [if_pos (Nat.le_add_right _ _)]
        rfl
    | cons m' rest2 =>
      unfold insideRun at hin
      by_cases hms : m'.source_index ≤ si
      · rw [if_pos hms] at hin
        obtain ⟨mh, hls, hle, hmem, hlr, ml, hml, hdisj⟩ := ih hpsr hprr hin
        have hmle : m.source_index ≤ si := by
          have := hallS m' (by simp)
          omega
        refine ⟨mh, ?_, hle, List.mem_cons_of_mem m hmem, ?_, ml, ?_, hdisj⟩
        · unfold lastSat
          rw [if_pos hmle, hls]
          rfl
        · unfold lastSat
          rw [if_pos ?hle2, hlr]
          · rfl
          case hle2 =>
            have := hallR mh hmem
            omega
        · rwa [List.getLast?_cons_cons]
      · rw [if_neg hms] at hin
        simp only [Bool.and_eq_true, decide_eq_true_eq] at hin
        obtain ⟨h1, h2⟩ := hin
        obtain ⟨ml, hml⟩ := getLast?_cons_isSome m' rest2
        have hmlmem : ml ∈ m' :: rest2 := List.mem_of_mem_getLast? (by rw [hml]; rfl)
        refine ⟨m, ?_, h1, by simp, ?_, ml, by rwa [List.getLast?_cons_cons], Or.inr ?_⟩
        · unfold lastSat
          rw [if_pos h1]
          unfold lastSat
          rw [if_neg (by omega)]
          rfl
        · unfold lastSat
          rw [if_pos (Nat.le_add_right _ _)]
          unfold lastSat
          rw [if_neg (by omega)]
          rfl
        · rcases List.mem_cons.mp hmlmem with hml' | hml'
          · rw [← hml'] at h2
            exact h2
          · have hmr := (List.pairwise_cons.mp hprr).1 ml hml'
            omega

/-- The per-line round trip: an offset inside a rendered run translates to a
rendered index that translates back to the same offset. -/
theorem line_roundtrip (line : RenderedLine) (si : Nat)
    (hs : SortedMappings line.source_mappings)
    (hin : insideRun si line.source_mappings = true) :
    ∃ r, line.rendered_index_for_source_index si = some r ∧
      line.source_index_for_rendered_index r = some si := by
  obtain ⟨m, hls, hle, hmem, hlr, _⟩ := insideRun_lastSat si line.source_mappings hs.1 hs.2 hin
  refine ⟨m.rendered_index + (si - m.source_index), ?_, ?_⟩
  · unfold RenderedLine.rendered_index_for_source_index
    rw [mappingLookup_eq_lastSat _ _ _ hs.1, hls]
    rfl
  · unfold RenderedLine.source_index_for_rendered_index
    rw [mappingLookup_eq_lastSat _ _ _ hs.2, hlr]
    simp only [Option.map_some', Option.some.injEq]
    omega

/-- If the position loop produced a position, that position's y-coordinate is
at or below the top of the first line of the remaining stack. -/
theorem posLoop_head_top (si : Nat) :
    ∀ (lines : List RenderedLine) (p : Point) (lh : Int),
      (∀ l ∈ lines, LayoutContract l.layout) →
      List.Chain' (fun a b => a.layout.bottom < b.layout.top) lines →
      (∀ l ∈ lines, l.layout.top ≤ l.layout.bottom) →
      positionForSourceIndexLoop si lines = some (some (p, lh)) →
      ∀ l0, lines.head? = some l0 → l0.layout.top ≤ p.y := by
  intro lines
  induction lines with
  | nil =>
    intro p lh _ _ _ hpos
    exact absurd hpos (by simp [positionForSourceIndexLoop])
  | cons l rest ih =>
    intro p lh hlc hch htb hpos l0 hl0
    simp only [List.head?_cons, Option.some.injEq] at hl0
    subst hl0
    unfold positionForSourceIndexLoop at hpos
    split at hpos
    · exact absurd hpos (by simp)
    · rename_i first hh
      split at hpos
      · exact absurd hpos (by simp)
      · split at hpos
        · -- si past this line: position comes from a later line
          rename_i h1 h2
          cases rest with
          | nil => exact absurd hpos (by simp [positionForSourceIndexLoop])
          | cons l1 rest2 =>
            have hl1 : l1.layout.top ≤ p.y := by
              refine ih p lh ?_ (List.chain'_cons.mp hch).2 ?_ hpos l1 (by simp)
              · intro x hx; exact hlc x (List.mem_cons_of_mem l hx)
              · intro x hx; exact htb x (List.mem_cons_of_mem l hx)
            have hlb : l.layout.bottom < l1.layout.top := (List.chain'_cons.mp hch).1
            have := htb l (by simp)
            omega
        · split at hpos
          · exact absurd hpos (by simp)
          · rename_i r hr
            cases hpi : l.layout.positionForIndex r with
            | none => rw [hpi] at hpos; exact absurd hpos (by simp)
            | some q =>
              rw [hpi] at hpos
              simp only [Option.map_some', Option.some.injEq, Prod.mk.injEq] at hpos
              obtain ⟨hq, _⟩ := hpos
              rw [hq] at hpi
              exact ((hlc l (by simp)) r p hpi).2.1

/-- The scans of `position_for_source_index` and `source_index_for_position`
settle on the same line, and on that line the translations round-trip. -/
theorem scan_agree (si : Nat) :
    ∀ (lines : List RenderedLine) (lastEnd : Nat) (p : Point) (lh : Int),
      (∀ l ∈ lines, WFLine l) →
      (∀ l ∈ lines, LayoutContract l.layout) →
      List.Chain' (fun a b => a.layout.bottom < b.layout.top) lines →
      (∀ l ∈ lines, l.layout.top ≤ l.layout.bottom) →
      (∀ l ∈ lines, lineContains l si = true → insideRun si l.source_mappings = true) →
      positionForSourceIndexLoop si lines = some (some (p, lh)) →
      sourceIndexForPositionLoop p lines lastEnd = some (.ok si) := by
  intro lines
  induction lines with
  | nil =>
    intro lastEnd p lh _ _ _ _ _ hpos
    exact absurd hpos (by simp [positionForSourceIndexLoop])
  | cons l rest ih =>
    intro lastEnd p lh hwf hlc hch htb hin hpos
    unfold positionForSourceIndexLoop at hpos
    split at hpos
    · exact absurd hpos (by simp)
    · rename_i first hh
      split at hpos
      · exact absurd hpos (by simp)
      · rename_i h1
        split at hpos
        · -- the position loop continued past this line
          rename_i h2
          cases rest with
          | nil => exact absurd hpos (by simp [positionForSourceIndexLoop])
          | cons l1 rest2 =>
            have hl1 : l1.layout.top ≤ p.y := by
              refine posLoop_head_top si (l1 :: rest2) p lh ?_
                (List.chain'_cons.mp hch).2 ?_ hpos l1 (by simp)
              · intro x hx; exact hlc x (List.mem_cons_of_mem l hx)
              · intro x hx; exact htb x (List.mem_cons_of_mem l hx)
            have hlb : l.layout.bottom < l1.layout.top := (List.chain'_cons.mp hch).1
            unfold sourceIndexForPositionLoop
            rw [if_pos (show p.y > l.layout.bottom by omega)]
            show (if p.y < l1.layout.top then some (Except.error l.source_end)
              else sourceIndexForPositionLoop p (l1 :: rest2) l.source_end) =
                some (Except.ok si)
            rw [if_neg (by omega)]
            refine ih l.source_end p lh ?_ ?_ (List.chain'_cons.mp hch).2 ?_ ?_ hpos
            · intro x hx; exact hwf x (List.mem_cons_of_mem l hx)
            · intro x hx; exact hlc x (List.mem_cons_of_mem l hx)
            · intro x hx; exact htb x (List.mem_cons_of_mem l hx)
            · intro x hx; exact hin x (List.mem_cons_of_mem l hx)
        · rename_i h2
          split at hpos
          · exact absurd hpos (by simp)
          · rename_i r hr
            cases hpi : l.layout.positionForIndex r with
            | none => rw [hpi] at hpos; exact absurd hpos (by simp)
            | some q =>
              rw [hpi] at hpos
              simp only [Option.map_some', Option.some.injEq, Prod.mk.injEq] at hpos
              obtain ⟨hq, _⟩ := hpos
              rw [hq] at hpi
              obtain ⟨hidx, htop, hbot⟩ := (hlc l (by simp)) r p hpi
              unfold sourceIndexForPositionLoop
              rw [if_neg (by omega)]
              unfold RenderedLine.source_index_for_position
              rw [hidx]
              have hwfl := hwf l (by simp)
              have hinl : insideRun si l.source_mappings = true := by
                refine hin l (by simp) ?_
                unfold lineContains
                rw [hh]
                simp only [Bool.and_eq_true, decide_eq_true_eq]
                omega
              obtain ⟨r', hr', hsr⟩ := line_roundtrip l si hwfl.2 hinl
              rw [hr] at hr'
              injection hr' with hr'
              rw [← hr'] at hsr
              show Option.map Except.ok (l.source_index_for_rendered_index r) =
                some (Except.ok si)
              rw [hsr]
              rfl

/-- Claim C1: for every well-formed rendered text whose layouts satisfy the
external layout collaborator's contract, and every source offset landing
inside rendered text, the two coordinate queries round-trip: if
`position_for_source_index` returns `Some((point, line_height))`, then
`source_index_for_position` at that point returns `Ok(offset)`. -/
theorem C1_roundtrip (t : RenderedText) (si : Nat) (p : Point) (lh : Int)
    (hwf : ∀ l ∈ t.lines, WFLine l)
    (hlc : ∀ l ∈ t.lines, LayoutContract l.layout)
    (hsep : LinesSeparated t.lines)
    (hin : ∀ l ∈ t.lines, lineContains l si = true → insideRun si l.source_mappings = true)
    (hpos : t.position_for_source_index si = some (some (p, lh))) :
    t.source_index_for_position p = some (.ok si) :=
  scan_agree si t.lines 0 p lh hwf hlc hsep.1 hsep.2 hin hpos

/-- Witness for C1 at the concrete one-line text `wText` and offset 2. -/
theorem C1_witness : wText.source_index_for_position ⟨2, 0⟩ = some (.ok 2) := by
  refine C1_roundtrip wText 2 ⟨2, 0⟩ 1 ?_ ?_ ?_ ?_ ?_
  · intro l hl
    simp only [wText, List.mem_singleton] at hl
    subst hl
    exact ⟨by decide, by decide, by decide⟩
  · intro l hl
    simp only [wText, List.mem_singleton] at hl
    subst hl
    intro i p hp
    simp only [wLine, wLayout] at hp ⊢
    injection hp with hp
    subst hp
    refine ⟨?_, le_refl _, le_refl _⟩
    simp
  · constructor
    · simp [wText, List.chain'_singleton]
    · intro l hl
      simp only [wText, List.mem_singleton] at hl
      subst hl
      decide
  · intro l hl _
    simp only [wText, List.mem_singleton] at hl
    subst hl
    decide
  · rfl

/-! ## Lemmas for `surrounding_word_range` (C6) -/

theorem rfindChar_lt (c : Char) :
    ∀ (s : List Char) (i : Nat), rfindChar c s = some i → i < s.length := by
  intro s
  induction s with
  | nil => intro i h; exact absurd h (by simp [rfindChar])
  | cons a rest ih =>
    intro i h
    unfold rfindChar at h
    cases hr : rfindChar c rest with
    | some j =>
      rw [hr] at h
      simp only [Option.some.injEq] at h
      subst h
      have := ih j hr
      simp only [List.length_cons]
      omega
    | none =>
      rw [hr] at h
      by_cases ha : a = c
      · rw [if_pos ha] at h
        simp only [Option.some.injEq] at h
        subst h
        simp
      · rw [if_neg ha] at h
        exact absurd h (by simp)

theorem findChar_lt (c : Char) :
    ∀ (s : List Char) (i : Nat), findChar c s = some i → i < s.length := by
  intro s
  induction s with
  | nil => intro i h; exact absurd h (by simp [findChar])
  | cons a rest ih =>
    intro i h
    unfold findChar at h
    by_cases ha : a = c
    · rw [if_pos ha] at h
      simp only [Option.some.injEq] at h
      subst h
      simp
    · rw [if_neg ha] at h
      cases hr : findChar c rest with
      | none => rw [hr] at h; exact absurd h (by simp)
      | some j =>
        rw [hr] at h
        simp only [Option.map_some', Option.some.injEq] at h
        subst h
        have := ih j hr
        simp only [List.length_cons]
        omega

/-- The value of the rendered-keyed interpolation is monotone in the
rendered index, given sorted, non-overlapping mappings. -/
theorem lastSat_mono (x y : Nat) (hxy : x ≤ y) :
    ∀ (ms : List SourceMapping) (mx my : SourceMapping),
      List.Pairwise (fun a b => a.source_index < b.source_index) ms →
      List.Pairwise (fun a b => a.rendered_index < b.rendered_index) ms →
      NonOverlap ms →
      lastSat (fun m => m.rendered_index) x ms = some mx →
      lastSat (fun m => m.rendered_index) y ms = some my →
      mx.source_index + (x - mx.rendered_index) ≤
        my.source_index + (y - my.rendered_index) := by
  intro ms
  induction ms with
  | nil => intro mx my _ _ _ h _; exact absurd h (by simp [lastSat])
  | cons m rest ih =>
    intro mx my hps hpr hov hlx hly
    unfold lastSat at hlx hly
    by_cases hm : m.rendered_index ≤ x
    · rw [if_pos hm] at hlx
      rw [if_pos (le_trans hm hxy)] at hly
      cases hrx : lastSat (fun m => m.rendered_index) x rest with
      | none =>
        rw [hrx] at hlx
        simp only [Option.getD_none, Option.some.injEq] at hlx
        subst hlx
        cases hry : lastSat (fun m => m.rendered_index) y rest with
        | none =>
          rw [hry] at hly
          simp only [Option.getD_none, Option.some.injEq] at hly
          subst hly
          omega
        | some m1 =>
          rw [hry] at hly
          simp only [Option.getD_some, Option.some.injEq] at hly
          subst hly
          cases rest with
          | nil => exact absurd hry (by simp [lastSat])
          | cons h0 rest' =>
            have hx0 : ¬ h0.rendered_index ≤ x := by
              by_contra hc
              unfold lastSat at hrx
              rw [if_pos hc] at hrx
              exact absurd hrx (by simp)
            have hfacts := lastSat_some_facts (fun m => m.rendered_index) y (h0 :: rest') m1 hry
            have hno : m.source_index + h0.rendered_index ≤
                h0.source_index + m.rendered_index :=
              (List.pairwise_cons.mp hov).1 h0 (by simp)
            have hsrc : h0.source_index ≤ m1.source_index := by
              rcases List.mem_cons.mp hfacts.1 with h | h
              · rw [h]
              · exact le_of_lt
                  ((List.pairwise_cons.mp (List.pairwise_cons.mp hps).2).1 m1 h)
            omega
      | some m0 =>
        rw [hrx] at hlx
        simp only [Option.getD_some, Option.some.injEq] at hlx
        subst hlx
        cases rest with
        | nil => exact absurd hrx (by simp [lastSat])
        | cons h0 rest' =>
          have h0x : h0.rendered_index ≤ x := by
            by_contra hc
            unfold lastSat at hrx
            rw [if_neg hc] at hrx
            exact absurd hrx (by simp)
          cases hry : lastSat (fun m => m.rendered_index) y (h0 :: rest') with
          | none =>
            unfold lastSat at hry
            rw [if_pos (le_trans h0x hxy)] at hry
            exact absurd hry (by simp)
          | some m1 =>
            rw [hry] at hly
            simp only [Option.getD_some, Option.some.injEq] at hly
            subst hly
            exact ih m0 m1 (List.pairwise_cons.mp hps).2 (List.pairwise_cons.mp hpr).2
              (List.pairwise_cons.mp hov).2 hrx hry
    · rw [if_neg hm] at hlx
      exact absurd hlx (by simp)

/-- On a sorted list whose last element's key is within range, the lookup
settles on the last element. -/
theorem lastSat_getLast (f : SourceMapping → Nat) (t : Nat) :
    ∀ (ms : List SourceMapping) (ml : SourceMapping),
      List.Pairwise (fun a b => f a < f b) ms →
      ms.getLast? = some ml → f ml ≤ t →
      lastSat f t ms = some ml := by
  intro ms
  induction ms with
  | nil => intro ml _ h _; exact absurd h (by simp)
  | cons m rest ih =>
    intro ml hp hgl hle
    cases rest with
    | nil =>
      simp only [List.getLast?_singleton, Option.some.injEq] at hgl
      subst hgl
      unfold lastSat
      rw [if_pos hle]
      rfl
    | cons m2 rest2 =>
      rw [List.getLast?_cons_cons] at hgl
      have hmem : ml ∈ m2 :: rest2 := List.mem_of_mem_getLast? (by rw [hgl]; rfl)
      have hmlt : f m < f ml := (List.pairwise_cons.mp hp).1 ml hmem
      unfold lastSat
      rw [if_pos (by omega), ih ml (List.pairwise_cons.mp hp).2 hgl hle]
      rfl

/-- When every line ends before the offset, `surrounding_word_range` falls
through to the empty range at the offset. -/
theorem wordRange_fallthrough (si : Nat) :
    ∀ lines : List RenderedLine, (∀ l ∈ lines, l.source_end < si) →
      surroundingWordRangeLoop si lines = some (si, si) := by
  intro lines
  induction lines with
  | nil => intro _; rfl
  | cons l rest ih =>
    intro h
    unfold surroundingWordRangeLoop
    rw [if_pos (h l (by simp))]
    exact ih (fun x hx => h x (List.mem_cons_of_mem l hx))

/-- Core of the word-range property: for any rendered indices bracketing the
offset's interpolated position within the line's rendered text, the
translated source endpoints bracket the offset and stay within the line's
source span. -/
theorem word_range_core (l0 : RenderedLine) (si prev next : Nat)
    (mf ml0 m : SourceMapping) (rest0 : List SourceMapping)
    (hms : l0.source_mappings = mf :: rest0)
    (hpsrc : List.Pairwise (fun a b => a.source_index < b.source_index) (mf :: rest0))
    (hprnd : List.Pairwise (fun a b => a.rendered_index < b.rendered_index) (mf :: rest0))
    (hovl : NonOverlap (mf :: rest0))
    (hgl : (mf :: rest0).getLast? = some ml0)
    (hexA : ml0.rendered_index ≤ mf.rendered_index + l0.layout.text.length)
    (hexB : l0.source_end + ml0.rendered_index =
      ml0.source_index + mf.rendered_index + l0.layout.text.length)
    (hmle : m.source_index ≤ si)
    (hlsR : lastSat (fun x => x.rendered_index)
      (m.rendered_index + (si - m.source_index)) (mf :: rest0) = some m)
    (hprev : mf.rendered_index + prev ≤ m.rendered_index + (si - m.source_index))
    (hnext : m.rendered_index + (si - m.source_index) ≤ mf.rendered_index + next)
    (hnlen : next ≤ l0.layout.text.length) :
    ∃ a b,
      l0.source_index_for_rendered_index (mf.rendered_index + prev) = some a ∧
      l0.source_index_for_rendered_index (mf.rendered_index + next) = some b ∧
      a ≤ si ∧ si ≤ b ∧ mf.source_index ≤ a ∧ b ≤ l0.source_end := by
  have hla : lastSat (fun x => x.rendered_index) (mf.rendered_index + prev) (mf :: rest0) =
      some ((lastSat (fun x => x.rendered_index) (mf.rendered_index + prev) rest0).getD mf) := by
    simp only [lastSat]
    rw [if_pos (Nat.le_add_right _ _)]
  have hlb : lastSat (fun x => x.rendered_index) (mf.rendered_index + next) (mf :: rest0) =
      some ((lastSat (fun x => x.rendered_index) (mf.rendered_index + next) rest0).getD mf) := by
    simp only [lastSat]
    rw [if_pos (Nat.le_add_right _ _)]
  set ma := (lastSat (fun x => x.rendered_index) (mf.rendered_index + prev) rest0).getD mf
    with hmadef
  set mb := (lastSat (fun x => x.rendered_index) (mf.rendered_index + next) rest0).getD mf
    with hmbdef
  have hfa := lastSat_some_facts (fun x => x.rendered_index) (mf.rendered_index + prev)
    (mf :: rest0) ma hla
  have hfb := lastSat_some_facts (fun x => x.rendered_index) (mf.rendered_index + next)
    (mf :: rest0) mb hlb
  have heqa : l0.source_index_for_rendered_index (mf.rendered_index + prev) =
      some (ma.source_index + (mf.rendered_index + prev - ma.rendered_index)) := by
    unfold RenderedLine.source_index_for_rendered_index
    rw [hms, mappingLookup_eq_lastSat _ _ _ hprnd, hla]
    rfl
  have heqb : l0.source_index_for_rendered_index (mf.rendered_index + next) =
      some (mb.source_index + (mf.rendered_index + next - mb.rendered_index)) := by
    unfold RenderedLine.source_index_for_rendered_index
    rw [hms, mappingLookup_eq_lastSat _ _ _ hprnd, hlb]
    rfl
  refine ⟨_, _, heqa, heqb, ?_, ?_, ?_, ?_⟩
  · -- a ≤ si
    have hmono := lastSat_mono (mf.rendered_index + prev)
      (m.rendered_index + (si - m.source_index)) hprev (mf :: rest0) ma m
      hpsrc hprnd hovl hla hlsR
    omega
  · -- si ≤ b
    have hmono := lastSat_mono (m.rendered_index + (si - m.source_index))
      (mf.rendered_index + next) hnext (mf :: rest0) m mb
      hpsrc hprnd hovl hlsR hlb
    omega
  · -- line start ≤ a
    have hmfs : mf.source_index ≤ ma.source_index := by
      rcases List.mem_cons.mp hfa.1 with h | h
      · rw [h]
      · exact le_of_lt ((List.pairwise_cons.mp hpsrc).1 ma h)
    omega
  · -- b ≤ source_end
    have hlast : lastSat (fun x => x.rendered_index)
        (mf.rendered_index + l0.layout.text.length) (mf :: rest0) = some ml0 :=
      lastSat_getLast (fun x => x.rendered_index)
        (mf.rendered_index + l0.layout.text.length) (mf :: rest0) ml0 hprnd hgl hexA
    have hmono := lastSat_mono (mf.rendered_index + next)
      (mf.rendered_index + l0.layout.text.length) (by omega) (mf :: rest0) mb ml0
      hpsrc hprnd hovl hlb hlast
    omega

/-- The word-range loop lands on the first line not ending before the
offset, and within that line the returned range brackets the offset and
stays inside the line's source span. -/
theorem c6_word_loop (si : Nat) :
    ∀ (lines : List RenderedLine) (l : RenderedLine),
      (∀ x ∈ lines, WFLine x) →
      (∀ x ∈ lines, NonOverlap x.source_mappings) →
      (∀ x ∈ lines, extentOK x = true) →
      lines.find? (fun x => decide (si ≤ x.source_end)) = some l →
      lineContains l si = true →
      insideRun si l.source_mappings = true →
      ∃ a b, surroundingWordRangeLoop si lines = some (a, b) ∧
        a ≤ si ∧ si ≤ b ∧
        (∀ mf, l.source_mappings.head? = some mf → mf.source_index ≤ a) ∧
        b ≤ l.source_end := by
  intro lines
  induction lines with
  | nil => intro l _ _ _ hfind _ _; exact absurd hfind (by simp)
  | cons l0 rest ih =>
    intro l hwf hov hex hfind hcont hin
    by_cases hcond : si ≤ l0.source_end
    case neg =>
      rw [List.find?_cons_of_neg _ (by simpa using hcond)] at hfind
      obtain ⟨a, b, hloop, h1, h2, h3, h4⟩ :=
        ih l (fun x hx => hwf x (List.mem_cons_of_mem l0 hx))
          (fun x hx => hov x (List.mem_cons_of_mem l0 hx))
          (fun x hx => hex x (List.mem_cons_of_mem l0 hx)) hfind hcont hin
      refine ⟨a, b, ?_, h1, h2, h3, h4⟩
      simp only [surroundingWordRangeLoop]
      rw [if_pos (by omega), hloop]
    case pos =>
      rw [List.find?_cons_of_pos _ (by simpa using hcond)] at hfind
      simp only [Option.some.injEq] at hfind
      subst hfind
      obtain ⟨hne, hsorted⟩ := hwf l0 (by simp)
      cases hms : l0.source_mappings with
      | nil => exact absurd hms hne
      | cons mf rest0 =>
        rw [hms] at hsorted hin
        obtain ⟨hpsrc, hprnd⟩ := hsorted
        have hovl := hov l0 (by simp)
        rw [hms] at hovl
        have hexl := hex l0 (by simp)
        obtain ⟨ml0, hgl⟩ := getLast?_cons_isSome mf rest0
        have hex1 : ml0.rendered_index ≤ mf.rendered_index + l0.layout.text.length ∧
            l0.source_end + ml0.rendered_index =
              ml0.source_index + mf.rendered_index + l0.layout.text.length := by
          unfold extentOK at hexl
          rw [hms] at hexl
          simp only [List.head?_cons, hgl] at hexl
          simpa using hexl
        have hcont2 : mf.source_index ≤ si ∧ si ≤ l0.source_end := by
          unfold lineContains at hcont
          rw [hms] at hcont
          simp only [List.head?_cons] at hcont
          simpa using hcont
        obtain ⟨m, hlsS, hmle, hmem, hlsR, ml', hgl', hdisj⟩ :=
          insideRun_lastSat si (mf :: rest0) hpsrc hprnd hin
        rw [hgl] at hgl'
        injection hgl' with hgl'
        subst hgl'
        have hrifs : l0.rendered_index_for_source_index si =
            some (m.rendered_index + (si - m.source_index)) := by
          unfold RenderedLine.rendered_index_for_source_index
          rw [hms, mappingLookup_eq_lastSat _ _ _ hpsrc, hlsS]
          rfl
        have hmfr : mf.rendered_index ≤ m.rendered_index := by
          rcases List.mem_cons.mp hmem with h | h
          · rw [h]
          · exact le_of_lt ((List.pairwise_cons.mp hprnd).1 m h)
        have hril : m.rendered_index + (si - m.source_index) - mf.rendered_index ≤
            l0.layout.text.length := by
          rcases hdisj with h | h
          · subst h
            obtain ⟨hexA, hexB⟩ := hex1
            omega
          · obtain ⟨hexA, hexB⟩ := hex1
            omega
        have hc1 : ¬ si > l0.source_end := by omega
        have hheadgoal : ∀ a : Nat, mf.source_index ≤ a →
            (∀ mf', (mf :: rest0).head? = some mf' → mf'.source_index ≤ a) := by
          intro a ha mf' hmf'
          rw [List.head?_cons] at hmf'
          injection hmf' with hmf'
          rw [← hmf']
          exact ha
        cases hrf : rfindChar ' ' (l0.layout.text.take
            (m.rendered_index + (si - m.source_index) - mf.rendered_index)) with
        | some idx =>
          have hidxlt := rfindChar_lt ' ' _ idx hrf
          rw [List.length_take] at hidxlt
          cases hff : findChar ' ' (l0.layout.text.drop
              (m.rendered_index + (si - m.source_index) - mf.rendered_index)) with
          | some jdx =>
            have hjlt := findChar_lt ' ' _ jdx hff
            rw [List.length_drop] at hjlt
            obtain ⟨a, b, heqa, heqb, h1, h2, h3, h4⟩ :=
              word_range_core l0 si (idx + 1)
                ((m.rendered_index + (si - m.source_index) - mf.rendered_index) + jdx)
                mf ml0 m rest0 hms hpsrc hprnd hovl hgl hex1.1 hex1.2 hmle hlsR
                (by omega) (by omega) (by omega)
            refine ⟨a, b, ?_, h1, h2, hheadgoal a h3, h4⟩
            simp only [surroundingWordRangeLoop]
            rw [if_neg hc1]
            simp only [hms, List.head?_cons, hrifs]
            rw [if_pos hril]
            simp only [hrf, hff]
            rw [heqa, heqb]
          | none =>
            obtain ⟨a, b, heqa, heqb, h1, h2, h3, h4⟩ :=
              word_range_core l0 si (idx + 1) l0.layout.text.length
                mf ml0 m rest0 hms hpsrc hprnd hovl hgl hex1.1 hex1.2 hmle hlsR
                (by omega) (by omega) (by omega)
            refine ⟨a, b, ?_, h1, h2, hheadgoal a h3, h4⟩
            simp only [surroundingWordRangeLoop]
            rw [if_neg hc1]
            simp only [hms, List.head?_cons, hrifs]
            rw [if_pos hril]
            simp only [hrf, hff]
            rw [heqa, heqb]
        | none =>
          cases hff : findChar ' ' (l0.layout.text.drop
              (m.rendered_index + (si - m.source_index) - mf.rendered_index)) with
          | some jdx =>
            have hjlt := findChar_lt ' ' _ jdx hff
            rw [List.length_drop] at hjlt
            obtain ⟨a, b, heqa, heqb, h1, h2, h3, h4⟩ :=
              word_range_core l0 si 0
                ((m.rendered_index + (si - m.source_index) - mf.rendered_index) + jdx)
                mf ml0 m rest0 hms hpsrc hprnd hovl hgl hex1.1 hex1.2 hmle hlsR
                (by omega) (by omega) (by omega)
            refine ⟨a, b, ?_, h1, h2, hheadgoal a h3, h4⟩
            simp only [surroundingWordRangeLoop]
            rw [if_neg hc1]
            simp only [hms, List.head?_cons, hrifs]
            rw [if_pos hril]
            simp only [hrf, hff]
            rw [heqa, heqb]
          | none =>
            obtain ⟨a, b, heqa, heqb, h1, h2, h3, h4⟩ :=
              word_range_core l0 si 0 l0.layout.text.length
                mf ml0 m rest0 hms hpsrc hprnd hovl hgl hex1.1 hex1.2 hmle hlsR
                (by omega) (by omega) (by omega)
            refine ⟨a, b, ?_, h1, h2, hheadgoal a h3, h4⟩
            simp only [surroundingWordRangeLoop]
            rw [if_neg hc1]
            simp only [hms, List.head?_cons, hrifs]
            rw [if_pos hril]
            simp only [hrf, hff]
            rw [heqa, heqb]

/-- Counterexample to C6 as stated: in `gapText` the line `gapLine` contains
source offset 3 (its span is `[0, 6]`), `gapLine` satisfies every structural
invariant of built lines, yet `surrounding_word_range 3` returns `(4, 6)`,
which does not contain 3 — offset 3 is markup with no rendered counterpart,
and the interpolated rendered position falls just after the space, so the
range snaps to the following word. -/
theorem C6_counterexample :
    WFLine gapLine ∧ NonOverlap gapLine.source_mappings ∧ extentOK gapLine = true ∧
    lineContains gapLine 3 = true ∧
    gapText.surrounding_word_range 3 = some (4, 6) ∧
    ¬(4 ≤ 3) := by
  refine ⟨?_, ?_, by decide, by decide, by decide, by decide⟩
  · unfold WFLine SortedMappings
    refine ⟨by decide, by decide, by decide⟩
  · unfold NonOverlap
    decide

/-- Claim C6 (amended): for well-formed lines, when the line found by the
loop (the first whose `source_end` is not before the offset) contains the
offset and the offset lands inside rendered text, `surrounding_word_range`
returns a range that contains the offset and expands only within that line's
source span (never crossing a line break); when no line reaches the offset it
returns the empty range at the offset. -/
theorem C6_word_range_amended :
    (∀ (t : RenderedText) (si : Nat) (l : RenderedLine),
      (∀ x ∈ t.lines, WFLine x) →
      (∀ x ∈ t.lines, NonOverlap x.source_mappings) →
      (∀ x ∈ t.lines, extentOK x = true) →
      findFirstLine t si = some l →
      lineContains l si = true →
      insideRun si l.source_mappings = true →
      ∃ a b, t.surrounding_word_range si = some (a, b) ∧
        a ≤ si ∧ si ≤ b ∧
        (∀ mf, l.source_mappings.head? = some mf → mf.source_index ≤ a) ∧
        b ≤ l.source_end) ∧
    (∀ (t : RenderedText) (si : Nat),
      (∀ x ∈ t.lines, x.source_end < si) →
      t.surrounding_word_range si = some (si, si)) := by
  constructor
  · intro t si l hwf hov hex hfind hcont hin
    exact c6_word_loop si t.lines l hwf hov hex hfind hcont hin
  · intro t si h
    exact wordRange_fallthrough si t.lines h

/-- Witness for the amended C6 at `gapText`, offset 1 (inside the rendered
run `"ab "`). -/
theorem C6_witness :
    ∃ a b, gapText.surrounding_word_range 1 = some (a, b) ∧
      a ≤ 1 ∧ 1 ≤ b ∧
      (∀ mf, gapLine.source_mappings.head? = some mf → mf.source_index ≤ a) ∧
      b ≤ gapLine.source_end := by
  refine C6_word_range_amended.1 gapText 1 gapLine ?_ ?_ ?_ rfl (by decide) (by decide)
  · intro x hx
    simp only [gapText, List.mem_singleton] at hx
    subst hx
    unfold WFLine SortedMappings
    refine ⟨by decide, by decide, by decide⟩
  · intro x hx
    simp only [gapText, List.mem_singleton] at hx
    subst hx
    unfold NonOverlap
    decide
  · intro x hx
    simp only [gapText, List.mem_singleton] at hx
    subst hx
    decide
